import Mathlib

/-!
Verification development for the Connect-Four search core
(`four_in_a_row.py`): a shallow embedding of the move generator, the
segment-based evaluator and the three search strategies (minimax,
alphabeta, expectimax), together with theorems settling the
specification's claims about them.

The `Board` capability is external to the repository's source file
(only its interface is visible: `rows`, `cols`, `row`, `col`,
`placeable`, `place`, `clone`, `terminal`, and the player tokens), so
it is modelled from the specification.  Everything else is translated
directly from `four_in_a_row.py`.

Python floats are modelled by exact rationals extended with the two
infinities (`XRat`), matching the `-math.inf` / `math.inf` sentinels
used by the searches; all values actually compared by the code on the
paths the theorems speak about are small integers or sums of exact
sevenths, where float and rational arithmetic agree.
-/

/-- Extended rationals: the value space of the Python searches, which mix
integer-valued heuristic scores with the sentinels `-math.inf` and
`math.inf`. -/
inductive XRat where
  | negInf : XRat
  | fin : ℚ → XRat
  | posInf : XRat
deriving DecidableEq, Repr

namespace XRat

/-- Python `<` on floats, restricted to the values that occur here. -/
def lt : XRat → XRat → Bool
  | negInf, negInf => false
  | negInf, _ => true
  | fin _, negInf => false
  | fin a, fin b => a < b
  | fin _, posInf => true
  | posInf, _ => false

/-- Python `<=`, as the negation of the reversed strict order (the values
here are never NaN). -/
def le (a b : XRat) : Bool := !(lt b a)

/-- Python `max(a, b)`: returns `a` unless `a < b`. -/
def maxx (a b : XRat) : XRat := if lt a b then b else a

/-- Python `min(a, b)`: returns `a` unless `b < a`. -/
def minn (a b : XRat) : XRat := if lt b a then b else a

/-- Python float addition on the values reachable in `expectimax`
(the mixed-infinity case is unreachable there; any total choice works). -/
def add : XRat → XRat → XRat
  | negInf, posInf => fin 0
  | posInf, negInf => fin 0
  | negInf, _ => negInf
  | _, negInf => negInf
  | posInf, _ => posInf
  | _, posInf => posInf
  | fin a, fin b => fin (a + b)

/-- Python `(1 / 7) * val` from `expectimax.min_value`. -/
def divSeven : XRat → XRat
  | negInf => negInf
  | posInf => posInf
  | fin a => fin ((1 / 7 : ℚ) * a)

end XRat

/-- Modelled from the spec: the two distinguishable player tokens exposed
by the Board capability (`board.PLAYER1`). -/
def PLAYER1 : Int := 1

/-- Modelled from the spec: the second player token (`board.PLAYER2`). -/
def PLAYER2 : Int := 2

/-- The sentinel used by `evaluate` to pad diagonals (`invalid_slot = -1`). -/
def invalid_slot : Int := -1

/-- Modelled from the spec: the external Board capability, a grid of
`rows × cols` slots each holding `empty (0) | PLAYER1 | PLAYER2`,
represented by its cell-lookup function. -/
structure Board where
  rows : Nat
  cols : Nat
  cell : Nat → Nat → Int

instance : Inhabited Board := ⟨{ rows := 0, cols := 0, cell := fun _ _ => 0 }⟩

namespace Board

/-- Modelled from the spec: `board.row(r)`, the ordered slot sequence of
row `r`. -/
def row (b : Board) (r : Nat) : List Int :=
  (List.range b.cols).map (fun c => b.cell r c)

/-- Modelled from the spec: `board.col(c)`, the ordered slot sequence of
column `c`. -/
def col (b : Board) (c : Nat) : List Int :=
  (List.range b.rows).map (fun r => b.cell r c)

/-- Modelled from the spec: `board.placeable(c)` — a column is placeable
iff it is on the board and not full, i.e. some slot of it is empty. -/
def placeable (b : Board) (c : Nat) : Bool :=
  decide (c < b.cols) && (List.range b.rows).any (fun r => b.cell r c == 0)

/-- Modelled from the spec: the bottom-most empty slot of column `c`
(row indices grow downwards), the slot a dropped disc comes to rest in. -/
def lowestEmpty (b : Board) (c : Nat) : Option Nat :=
  (List.range b.rows).reverse.find? (fun r => b.cell r c == 0)

/-- Modelled from the spec: `board.place(player, c)` — drop a disc of
`player` into column `c`; in this pure model the updated board is
returned. -/
def place (b : Board) (player : Int) (c : Nat) : Board :=
  match b.lowestEmpty c with
  | none => b
  | some r0 =>
      { b with cell := fun r' c' => if r' = r0 ∧ c' = c then player else b.cell r' c' }

/-- Modelled from the spec: `board.clone()`, a fully independent copy; in
this pure value model cloning is the identity. -/
def clone (b : Board) : Board := b

/-- All 4-slot segments of the board, in the order `evaluate` builds them:
rows, columns, then the two sentinel-padded diagonal directions. -/
def segments (b : Board) : List (List Int) :=
  let left_revolved :=
    (List.range b.rows).map (fun r =>
      List.replicate r invalid_slot ++ b.row r ++ List.replicate (b.rows - 1 - r) invalid_slot)
  let right_revolved :=
    (List.range b.rows).map (fun r =>
      List.replicate (b.rows - 1 - r) invalid_slot ++ b.row r ++ List.replicate r invalid_slot)
  ((List.range b.rows).flatMap (fun r =>
      (List.range (b.cols - 3)).map (fun c => ((b.row r).drop c).take 4)))
  ++ ((List.range b.cols).flatMap (fun c =>
      (List.range (b.rows - 3)).map (fun r => ((b.col c).drop r).take 4)))
  ++ ((pyZip left_revolved).flatMap (fun d =>
      (List.range (b.rows - 3)).map (fun r => (d.drop r).take 4)))
  ++ ((pyZip right_revolved).flatMap (fun d =>
      (List.range (b.rows - 3)).map (fun r => (d.drop r).take 4)))
where
  /-- Python `zip(*ls)`: truncating transposition. -/
  pyZip (ls : List (List Int)) : List (List Int) :=
    match (ls.map List.length).min? with
    | none => []
    | some n => (List.range n).map (fun i => ls.map (fun l => l.getD i 0))

/-- Modelled from the spec: the board is full (no empty slot). -/
def full (b : Board) : Bool :=
  (List.range b.rows).all (fun r => (List.range b.cols).all (fun c => b.cell r c != 0))

/-- Modelled from the spec: `player` has four in a row somewhere. -/
def win (b : Board) (player : Int) : Bool :=
  (b.segments).any (fun s => s == [player, player, player, player])

/-- Modelled from the spec: `board.terminal()` — someone has won or the
board is full. -/
def terminal (b : Board) : Bool :=
  b.full || b.win PLAYER1 || b.win PLAYER2

end Board

/-- `get_child_boards(player, board)` from `four_in_a_row.py`: for each
column in order, if placeable, clone the board, place the disc on the
clone, and collect `(column, clone)`. -/
def get_child_boards (player : Int) (board : Board) : List (Nat × Board) :=
  (List.range board.cols).filterMap (fun c =>
    if board.placeable c then some (c, (board.clone).place player c) else none)

/-- Increment entry `i` of a score vector (`score[i] += 1`). -/
def bump (v : List Int) (i : Nat) : List Int :=
  v.set i (v.getD i 0 + 1)

/-- The segment-scoring loop of `evaluate`: thread the pair
`(score, adv_score)` through the segment list, skipping segments holding
the sentinel, and bucketing each remaining segment by occupancy. -/
def segLoop (player adversary : Int) : List (List Int) → List Int × List Int → List Int × List Int
  | [], st => st
  | s :: rest, (score, adv_score) =>
      if s.contains invalid_slot then segLoop player adversary rest (score, adv_score)
      else
        let score' := if !(s.contains adversary) then bump score (s.count player) else score
        let adv' := if !(s.contains player) then bump adv_score (s.count adversary) else adv_score
        segLoop player adversary rest (score', adv')

/-- `sum([s*w for s, w in zip(v, weights)])`. -/
def dot (v w : List Int) : Int := (List.zipWith (· * ·) v w).sum

/-- `evaluate(player, board)` from `four_in_a_row.py`: weighted
segment-occupancy score of `player` minus that of the adversary. -/
def evaluate (player : Int) (board : Board) : Int :=
  let adversary := if player = PLAYER1 then PLAYER2 else PLAYER1
  let weights : List Int := [0, 1, 4, 16, 1000]
  let st := segLoop player adversary board.segments
      (List.replicate 5 0, List.replicate 5 0)
  dot st.1 weights - dot st.2 weights

/-- The pair of nonlocal variables (`placement`, `score`) shared by the
nested functions of `minimax` (and of `expectimax`). -/
structure MmState where
  placement : Option Nat
  score : XRat
deriving DecidableEq, Repr

/-- The nonlocal variables (`placement`, `score`, `alpha`, `beta`) shared
by the nested functions of `alphabeta`. -/
structure AbState where
  placement : Option Nat
  score : XRat
  alpha : XRat
  beta : XRat
deriving DecidableEq, Repr

/-- The child loop of `minimax.max_value` (also of `expectimax.max_value`):
`recur` is the recursive `value` call at the next depth, already applied
to the fixed `next_player`. -/
def mmMaxLoop (recur : Board → MmState → XRat × MmState) :
    List (Nat × Board) → MmState → MmState
  | [], st => st
  | ch :: rest, st =>
      let r := recur ch.2 st
      let st2 := if r.2.score.lt r.1 then { placement := some ch.1, score := r.1 } else r.2
      mmMaxLoop recur rest st2

/-- The child loop of `minimax.min_value`. -/
def mmMinLoop (recur : Board → MmState → XRat × MmState) :
    List (Nat × Board) → MmState → MmState
  | [], st => st
  | ch :: rest, st =>
      let r := recur ch.2 st
      let st2 := if r.1.lt r.2.score then { placement := some ch.1, score := r.1 } else r.2
      mmMinLoop recur rest st2

/-- `minimax.value` (with `max_value` / `min_value` inlined as loops):
the nonlocal state is threaded explicitly; `max_player` and the
closure-captured `next_player` are parameters. -/
def mmValue (maxP nextP : Int) : Nat → Int → Board → MmState → XRat × MmState
  | 0, _player, board, st => (.fin (evaluate maxP board), st)
  | d + 1, player, board, st =>
      if board.terminal then (.fin (evaluate maxP board), st)
      else if player = maxP then
        let st1 := mmMaxLoop (fun b s => mmValue maxP nextP d nextP b s)
          (get_child_boards player board) { st with score := .negInf }
        (st1.score, st1)
      else
        let st1 := mmMinLoop (fun b s => mmValue maxP nextP d nextP b s)
          (get_child_boards player board) { st with score := .posInf }
        (st1.score, st1)

/-- `minimax(player, board, depth_limit)` from `four_in_a_row.py`. -/
def minimax (player : Int) (board : Board) (depth_limit : Nat) : Option Nat :=
  let next_player := if player = PLAYER1 then PLAYER2 else PLAYER1
  let st : MmState := { placement := none, score := .negInf }
  ((mmValue player next_player depth_limit player board st).2).placement

/-- The child loop of `alphabeta.max_value`, with the
`beta <= alpha` break checked after every child. -/
def abMaxLoop (recur : Board → AbState → XRat × AbState) :
    List (Nat × Board) → AbState → AbState
  | [], st => st
  | ch :: rest, st =>
      let r := recur ch.2 st
      let st2 :=
        if r.2.score.lt r.1 then
          { r.2 with placement := some ch.1, score := r.1, alpha := r.2.alpha.maxx r.1 }
        else r.2
      if st2.beta.le st2.alpha then st2 else abMaxLoop recur rest st2

/-- The child loop of `alphabeta.min_value`, with the
`beta <= alpha` break checked after every child. -/
def abMinLoop (recur : Board → AbState → XRat × AbState) :
    List (Nat × Board) → AbState → AbState
  | [], st => st
  | ch :: rest, st =>
      let r := recur ch.2 st
      let st2 :=
        if r.1.lt r.2.score then
          { r.2 with placement := some ch.1, score := r.1, beta := r.2.beta.minn r.1 }
        else r.2
      if st2.beta.le st2.alpha then st2 else abMinLoop recur rest st2

/-- `alphabeta.value`: note that, as in the source, the leaf case scores
with the local `player`, the dispatch tests `next_player == max_player`,
and both loops recurse with the unchanged local `player`. -/
def abValue (maxP nextP : Int) : Nat → Int → Board → AbState → XRat × AbState
  | 0, player, board, st => (.fin (evaluate player board), st)
  | d + 1, player, board, st =>
      if board.terminal then (.fin (evaluate player board), st)
      else if nextP = maxP then
        let st1 := abMaxLoop (fun b s => abValue maxP nextP d player b s)
          (get_child_boards player board) { st with score := .negInf }
        (st1.score, st1)
      else
        let st1 := abMinLoop (fun b s => abValue maxP nextP d player b s)
          (get_child_boards player board) { st with score := .posInf }
        (st1.score, st1)

/-- `alphabeta(player, board, depth_limit)` from `four_in_a_row.py`. -/
def alphabeta (player : Int) (board : Board) (depth_limit : Nat) : Option Nat :=
  let next_player := if player = PLAYER1 then PLAYER2 else PLAYER1
  let st : AbState :=
    { placement := none, score := .negInf, alpha := .negInf, beta := .posInf }
  ((abValue player next_player depth_limit player board st).2).placement

/-- The child loop of `expectimax.min_value`: accumulate
`score += (1/7) * val`, then jump to `val` (recording the column)
whenever the running score is below it. -/
def exChanceLoop (recur : Board → MmState → XRat × MmState) :
    List (Nat × Board) → MmState → MmState
  | [], st => st
  | ch :: rest, st =>
      let r := recur ch.2 st
      let st2 : MmState := { r.2 with score := r.2.score.add r.1.divSeven }
      let st3 := if st2.score.lt r.1 then { placement := some ch.1, score := r.1 } else st2
      exChanceLoop recur rest st3

/-- `expectimax.value`: the leaf case scores with the local `player`;
`max_value` (which, as in the source, does not reset the shared score)
reuses `mmMaxLoop`; the adversary node is the chance loop. -/
def exValue (maxP nextP : Int) : Nat → Int → Board → MmState → XRat × MmState
  | 0, player, board, st => (.fin (evaluate player board), st)
  | d + 1, player, board, st =>
      if board.terminal then (.fin (evaluate player board), st)
      else if player = maxP then
        let st1 := mmMaxLoop (fun b s => exValue maxP nextP d nextP b s)
          (get_child_boards player board) st
        (st1.score, st1)
      else
        let st1 := exChanceLoop (fun b s => exValue maxP nextP d nextP b s)
          (get_child_boards player board) { st with score := .fin 0 }
        (st1.score, st1)

/-- `expectimax(player, board, depth_limit)` from `four_in_a_row.py`. -/
def expectimax (player : Int) (board : Board) (depth_limit : Nat) : Option Nat :=
  let next_player := if player = PLAYER1 then PLAYER2 else PLAYER1
  let st : MmState := { placement := none, score := .negInf }
  ((exValue player next_player depth_limit player board st).2).placement

/-! ## Concrete boards used by the concrete theorems -/

/-- An empty 4-row, 4-column board (a small but fully legal instance of
the Board capability). -/
def emptyBoard4 : Board := { rows := 4, cols := 4, cell := fun _ _ => 0 }

/-- The board after PLAYER1 drops in column 0 and PLAYER2 answers in
column 0 (discs at (3,0) and (2,0)). -/
def stackedBoard : Board := ((emptyBoard4.clone).place PLAYER1 0).place PLAYER2 0

/-- A 4×4 board whose column 3 is full (`2,1,2,1` top to bottom), leaving
exactly three placeable columns; no four-in-a-row is present. -/
def threeColBoard : Board :=
  { rows := 4, cols := 4, cell := fun r c =>
      if c = 3 then (if r = 0 then 2 else if r = 1 then 1 else if r = 2 then 2 else 1)
      else 0 }

/-- The board holding a single PLAYER1 disc at (3,0). -/
def oneDiscBoard : Board := (emptyBoard4.clone).place PLAYER1 0

/-- The initial nonlocal state of `minimax` / `expectimax`
(`placement = None`, `score = -math.inf`). -/
def mmInit : MmState := { placement := none, score := .negInf }

/-! ## Closed form of the expectimax chance accumulation -/

/-- One iteration of `expectimax.min_value` on a finite running score:
`score += (1/7) * val`, then jump to `val` if the running score fell
below it. -/
def chanceStep (s v : ℚ) : ℚ :=
  let s2 := s + (1 / 7 : ℚ) * v
  if s2 < v then v else s2

/-- The value `expectimax.min_value` computes from its children's
(finite) values. -/
def chanceFold (vs : List ℚ) : ℚ := vs.foldl chanceStep 0

/-! ## Store-level embedding of the mutation structure

The Python code manipulates board *objects*: `get_child_boards` clones
the input object and mutates only the clone, and the searches never call
`place` at all.  To state the frame claim (the input board is never
mutated) the heap is made explicit: a store is a list of boards, a board
object is an index into it, `clone` allocates and `place` updates in
place.  These `...S` functions are the same code as above, with every
board argument replaced by a reference into the threaded store. -/

/-- A heap of board objects, addressed by position. -/
abbrev Store := List Board

/-- `board.clone()`: allocate a copy at a fresh reference. -/
def cloneS (σ : Store) (ref : Nat) : Nat × Store :=
  (List.length σ, σ ++ [(σ.getD ref default).clone])

/-- `board.place(player, c)`: update the referenced board in place. -/
def placeS (σ : Store) (ref : Nat) (player : Int) (c : Nat) : Store :=
  σ.set ref ((σ.getD ref default).place player c)

/-- The column loop of `get_child_boards`, reading the input board from
the store at every test, cloning and then mutating only the clone. -/
def gcbLoop (player : Int) (ref : Nat) :
    List Nat → List (Nat × Nat) × Store → List (Nat × Nat) × Store
  | [], acc => acc
  | c :: rest, (res, σ) =>
      if (σ.getD ref default).placeable c then
        let a := cloneS σ ref
        let σ2 := placeS a.2 a.1 player c
        gcbLoop player ref rest (res ++ [(c, a.1)], σ2)
      else gcbLoop player ref rest (res, σ)

/-- Store-level `get_child_boards`. -/
def get_child_boardsS (player : Int) (σ : Store) (ref : Nat) :
    List (Nat × Nat) × Store :=
  gcbLoop player ref (List.range (σ.getD ref default).cols) ([], σ)

/-- Store-level `minimax.max_value` child loop. -/
def mmMaxLoopS (recur : Nat → MmState → Store → XRat × MmState × Store) :
    List (Nat × Nat) → MmState → Store → MmState × Store
  | [], st, σ => (st, σ)
  | ch :: rest, st, σ =>
      let r := recur ch.2 st σ
      let st2 :=
        if r.2.1.score.lt r.1 then { placement := some ch.1, score := r.1 } else r.2.1
      mmMaxLoopS recur rest st2 r.2.2

/-- Store-level `minimax.min_value` child loop. -/
def mmMinLoopS (recur : Nat → MmState → Store → XRat × MmState × Store) :
    List (Nat × Nat) → MmState → Store → MmState × Store
  | [], st, σ => (st, σ)
  | ch :: rest, st, σ =>
      let r := recur ch.2 st σ
      let st2 :=
        if r.1.lt r.2.1.score then { placement := some ch.1, score := r.1 } else r.2.1
      mmMinLoopS recur rest st2 r.2.2

/-- Store-level `minimax.value`. -/
def mmValueS (maxP nextP : Int) : Nat → Int → Nat → MmState → Store → XRat × MmState × Store
  | 0, _player, ref, st, σ => (.fin (evaluate maxP (σ.getD ref default)), st, σ)
  | d + 1, player, ref, st, σ =>
      if (σ.getD ref default).terminal then
        (.fin (evaluate maxP (σ.getD ref default)), st, σ)
      else if player = maxP then
        let r := get_child_boardsS player σ ref
        let r2 := mmMaxLoopS (fun rf s τ => mmValueS maxP nextP d nextP rf s τ)
          r.1 { st with score := .negInf } r.2
        (r2.1.score, r2.1, r2.2)
      else
        let r := get_child_boardsS player σ ref
        let r2 := mmMinLoopS (fun rf s τ => mmValueS maxP nextP d nextP rf s τ)
          r.1 { st with score := .posInf } r.2
        (r2.1.score, r2.1, r2.2)

/-- Store-level `minimax`, returning the placement and the final store. -/
def minimaxS (player : Int) (σ : Store) (ref : Nat) (depth_limit : Nat) :
    Option Nat × Store :=
  let next_player := if player = PLAYER1 then PLAYER2 else PLAYER1
  let r := mmValueS player next_player depth_limit player ref mmInit σ
  (r.2.1.placement, r.2.2)

/-- Store-level `alphabeta.max_value` child loop. -/
def abMaxLoopS (recur : Nat → AbState → Store → XRat × AbState × Store) :
    List (Nat × Nat) → AbState → Store → AbState × Store
  | [], st, σ => (st, σ)
  | ch :: rest, st, σ =>
      let r := recur ch.2 st σ
      let st2 :=
        if r.2.1.score.lt r.1 then
          { r.2.1 with placement := some ch.1, score := r.1, alpha := r.2.1.alpha.maxx r.1 }
        else r.2.1
      if st2.beta.le st2.alpha then (st2, r.2.2) else abMaxLoopS recur rest st2 r.2.2

/-- Store-level `alphabeta.min_value` child loop. -/
def abMinLoopS (recur : Nat → AbState → Store → XRat × AbState × Store) :
    List (Nat × Nat) → AbState → Store → AbState × Store
  | [], st, σ => (st, σ)
  | ch :: rest, st, σ =>
      let r := recur ch.2 st σ
      let st2 :=
        if r.1.lt r.2.1.score then
          { r.2.1 with placement := some ch.1, score := r.1, beta := r.2.1.beta.minn r.1 }
        else r.2.1
      if st2.beta.le st2.alpha then (st2, r.2.2) else abMinLoopS recur rest st2 r.2.2

/-- Store-level `alphabeta.value`. -/
def abValueS (maxP nextP : Int) : Nat → Int → Nat → AbState → Store → XRat × AbState × Store
  | 0, player, ref, st, σ => (.fin (evaluate player (σ.getD ref default)), st, σ)
  | d + 1, player, ref, st, σ =>
      if (σ.getD ref default).terminal then
        (.fin (evaluate player (σ.getD ref default)), st, σ)
      else if nextP = maxP then
        let r := get_child_boardsS player σ ref
        let r2 := abMaxLoopS (fun rf s τ => abValueS maxP nextP d player rf s τ)
          r.1 { st with score := .negInf } r.2
        (r2.1.score, r2.1, r2.2)
      else
        let r := get_child_boardsS player σ ref
        let r2 := abMinLoopS (fun rf s τ => abValueS maxP nextP d player rf s τ)
          r.1 { st with score := .posInf } r.2
        (r2.1.score, r2.1, r2.2)

/-- Store-level `alphabeta`, returning the placement and the final store. -/
def alphabetaS (player : Int) (σ : Store) (ref : Nat) (depth_limit : Nat) :
    Option Nat × Store :=
  let next_player := if player = PLAYER1 then PLAYER2 else PLAYER1
  let st : AbState :=
    { placement := none, score := .negInf, alpha := .negInf, beta := .posInf }
  let r := abValueS player next_player depth_limit player ref st σ
  (r.2.1.placement, r.2.2)

/-- Store-level `expectimax.min_value` child loop. -/
def exChanceLoopS (recur : Nat → MmState → Store → XRat × MmState × Store) :
    List (Nat × Nat) → MmState → Store → MmState × Store
  | [], st, σ => (st, σ)
  | ch :: rest, st, σ =>
      let r := recur ch.2 st σ
      let st2 : MmState := { r.2.1 with score := r.2.1.score.add r.1.divSeven }
      let st3 := if st2.score.lt r.1 then { placement := some ch.1, score := r.1 } else st2
      exChanceLoopS recur rest st3 r.2.2

/-- Store-level `expectimax.value`. -/
def exValueS (maxP nextP : Int) : Nat → Int → Nat → MmState → Store → XRat × MmState × Store
  | 0, player, ref, st, σ => (.fin (evaluate player (σ.getD ref default)), st, σ)
  | d + 1, player, ref, st, σ =>
      if (σ.getD ref default).terminal then
        (.fin (evaluate player (σ.getD ref default)), st, σ)
      else if player = maxP then
        let r := get_child_boardsS player σ ref
        let r2 := mmMaxLoopS (fun rf s τ => exValueS maxP nextP d nextP rf s τ) r.1 st r.2
        (r2.1.score, r2.1, r2.2)
      else
        let r := get_child_boardsS player σ ref
        let r2 := exChanceLoopS (fun rf s τ => exValueS maxP nextP d nextP rf s τ)
          r.1 { st with score := .fin 0 } r.2
        (r2.1.score, r2.1, r2.2)

/-- Store-level `expectimax`, returning the placement and the final store. -/
def expectimaxS (player : Int) (σ : Store) (ref : Nat) (depth_limit : Nat) :
    Option Nat × Store :=
  let next_player := if player = PLAYER1 then PLAYER2 else PLAYER1
  let r := exValueS player next_player depth_limit player ref mmInit σ
  (r.2.1.placement, r.2.2)

/-! ## Invariant predicates used by the proofs -/

/-- Every column recorded in the minimax/expectimax nonlocal state is
placeable on the original root board `b0`. -/
def PlOK (b0 : Board) (st : MmState) : Prop :=
  ∀ c, st.placement = some c → b0.placeable c = true

/-- Every column recorded in the alphabeta nonlocal state is placeable on
the original root board `b0`. -/
def PlOKa (b0 : Board) (st : AbState) : Prop :=
  ∀ c, st.placement = some c → b0.placeable c = true

/-- `b` was obtained from `b0` by adding discs, as far as placeability is
concerned: every column placeable on `b` was placeable on `b0`. -/
def Covers (b0 b : Board) : Prop :=
  ∀ c, b.placeable c = true → b0.placeable c = true

/-- The store only grew: `σ'` is `σ` with freshly allocated clones
appended; every pre-existing board object is untouched. -/
def StoreGrows (σ σ' : Store) : Prop :=
  ∃ t, σ' = σ ++ t

attribute [local semireducible] Rat.add Rat.mul Rat.inv Rat.sub

/-! ## Theorems -/

theorem segLoop_swap (p a : Int) (segs : List (List Int)) :
    ∀ x y, segLoop p a segs (x, y)
      = ((segLoop a p segs (y, x)).2, (segLoop a p segs (y, x)).1) := by
  induction segs with
  | nil => intro x y; rfl
  | cons s rest ih =>
      intro x y
      by_cases h : s.contains invalid_slot = true
      · simp only [segLoop, h, if_true]
        exact ih x y
      · simp only [segLoop, h, if_false, Bool.false_eq_true]
        exact ih _ _

/-- C6: `evaluate` is antisymmetric in the player argument: for either
player, evaluating the same board from the adversary's perspective yields
the exact negation, because each side's reward term is the other side's
penalty term. -/
theorem evaluate_antisymmetric (p : Int) (b : Board)
    (hp : p = PLAYER1 ∨ p = PLAYER2) :
    evaluate p b = -evaluate (if p = PLAYER1 then PLAYER2 else PLAYER1) b := by
  rcases hp with h | h <;> subst h <;>
    simp only [evaluate, PLAYER1, PLAYER2, if_true, reduceIte] <;>
    rw [segLoop_swap] <;>
    exact (neg_sub _ _).symm

/-- Witness for C6 at a concrete board holding one PLAYER1 disc. -/
theorem evaluate_antisymmetric_witness :
    (PLAYER1 = PLAYER1 ∨ PLAYER1 = PLAYER2) ∧
      evaluate PLAYER1 oneDiscBoard
        = -evaluate (if PLAYER1 = PLAYER1 then PLAYER2 else PLAYER1) oneDiscBoard :=
  ⟨Or.inl rfl, evaluate_antisymmetric PLAYER1 oneDiscBoard (Or.inl rfl)⟩

theorem filterMap_if {α β : Type} (q : α → Bool) (f : α → β) :
    ∀ l : List α,
      (l.filterMap fun c => if q c then some (f c) else none) = (l.filter q).map f := by
  intro l
  induction l with
  | nil => rfl
  | cons hd tl ih =>
      by_cases h : q hd = true <;>
        simp [List.filterMap_cons, List.filter_cons, h, ih]

/-- C7: `get_child_boards` returns exactly one `(column, successor)` pair
per placeable column, in ascending column order; each successor is the
clone of the input board with one disc of the player placed in that
column (so in particular the result is empty when no column is
placeable). -/
theorem get_child_boards_characterization (p : Int) (b : Board) :
    get_child_boards p b
        = ((List.range b.cols).filter (fun c => b.placeable c)).map
            (fun c => (c, (b.clone).place p c))
      ∧ List.Pairwise (· < ·) ((get_child_boards p b).map Prod.fst) := by
  have h1 := filterMap_if (fun c => b.placeable c)
    (fun c => (c, (b.clone).place p c)) (List.range b.cols)
  refine ⟨h1, ?_⟩
  show List.Pairwise _ _
  rw [show get_child_boards p b
      = ((List.range b.cols).filter (fun c => b.placeable c)).map
          (fun c => (c, (b.clone).place p c)) from h1]
  rw [List.map_map]
  simp only [Function.comp_def, List.map_id_fun', List.map_id']
  exact List.Pairwise.filter _ (List.pairwise_lt_range b.cols)

/-- C9: with `depth_limit = 0` every strategy treats the root as a leaf,
never touches the shared `placement`, and returns `None`. -/
theorem depth_zero_returns_none (p : Int) (b : Board) :
    minimax p b 0 = none ∧ alphabeta p b 0 = none ∧ expectimax p b 0 = none :=
  ⟨rfl, rfl, rfl⟩

/-- C1: pruning does change the chosen column.  On the empty 4×4 board at
depth 1 the four successor scores (for PLAYER1) are `[3, 2, 2, 3]`:
`minimax` keeps the first maximum (column 0), while `alphabeta` — whose
`value` dispatches on `next_player == max_player`, which never holds —
runs `min_value` at the root and keeps the first strict minimum
(column 1). -/
theorem alphabeta_diverges_from_minimax :
    ((List.range 4).map (fun c => evaluate PLAYER1 ((emptyBoard4.clone).place PLAYER1 c))
        = [3, 2, 2, 3])
      ∧ minimax PLAYER1 emptyBoard4 1 = some 0
      ∧ alphabeta PLAYER1 emptyBoard4 1 = some 1 := by
  decide

/-- C2: the player to move does not alternate.  `minimax.min_value`
recurses with the closure-fixed `next_player` — the very player that just
moved at the MIN ply — so a ply-2 node is dispatched to `min_value`
again.  On the board with PLAYER1 at (3,0) and PLAYER2 at (2,0), the
code's ply-2 call (player argument `next_player = PLAYER2`) takes the
minimum of the leaf scores, `-2`, whereas the same node dispatched with
the alternated player PLAYER1 — what the claim prescribes — is a MAX node
worth `6`. -/
theorem minimax_ply2_is_min_again :
    (mmValue PLAYER1 PLAYER2 1 PLAYER2 stackedBoard mmInit).1 = .fin (-2)
      ∧ (mmValue PLAYER1 PLAYER2 1 PLAYER1 stackedBoard mmInit).1 = .fin 6
      ∧ ((-2 : ℚ) ≠ 6) := by
  decide

/-- C3: `expectimax.value` scores a leaf with the *locally* passed player,
not the original requester: the depth-0 call it makes below ply 1 carries
`next_player`, so with PLAYER1 as root requester the leaf holding one
PLAYER1 disc is scored `evaluate(PLAYER2, ·) = -3` although the root
requester's score there is `3`. -/
theorem expectimax_leaf_scored_from_local_player :
    exValue PLAYER1 PLAYER2 0 PLAYER2 oneDiscBoard mmInit
        = (.fin (evaluate PLAYER2 oneDiscBoard), mmInit)
      ∧ evaluate PLAYER2 oneDiscBoard = -3
      ∧ evaluate PLAYER1 oneDiscBoard = 3 := by
  decide

/-- C4 counterexample: at depth 2 on the board with PLAYER1 at (3,0) and
PLAYER2 at (2,0), `minimax` returns column 1 — a column recorded by a
deeper MIN node through the shared nonlocal `placement` — although the
root successor through column 1 is worth `-1` while the one through
column 3 is worth `1`, so column 1 is not the root ply's best-move
decision. -/
theorem minimax_depth2_returns_nonroot_column :
    minimax PLAYER1 stackedBoard 2 = some 1
      ∧ (mmValue PLAYER1 PLAYER2 1 PLAYER2 ((stackedBoard.clone).place PLAYER1 1) mmInit).1
          = .fin (-1)
      ∧ (mmValue PLAYER1 PLAYER2 1 PLAYER2 ((stackedBoard.clone).place PLAYER1 3) mmInit).1
          = .fin 1
      ∧ ((-1 : ℚ) < 1) := by
  decide

/-- C5 counterexample: on the 4×4 board whose column 3 is full, the
adversary has exactly 3 legal replies with (code-computed) child values
`[5, 2, 2]`, yet the chance node is worth `39/7` — not the unweighted
3-child mean `(5+2+2)/3 = 3` — because each child is weighted by the
fixed constant `1/7` and the running sum is bumped up to a child's value
whenever it falls below it. -/
theorem expectimax_chance_node_not_mean :
    (get_child_boards PLAYER2 threeColBoard).map Prod.fst = [0, 1, 2]
      ∧ ((get_child_boards PLAYER2 threeColBoard).map (fun ch => evaluate PLAYER2 ch.2)
          = [5, 2, 2])
      ∧ (exValue PLAYER1 PLAYER2 1 PLAYER2 threeColBoard mmInit).1 = .fin (39 / 7)
      ∧ ((39 : ℚ) / 7 ≠ ((5 : ℚ) + 2 + 2) / 3) := by
  decide

theorem XRat.lt_fin_fin (a b : ℚ) : XRat.lt (.fin a) (.fin b) = decide (a < b) := rfl

theorem XRat.lt_negInf_fin (a : ℚ) : XRat.lt .negInf (.fin a) = true := rfl

/-- Behaviour of the `max_value` child loop when every recursive call is a
leaf with value `f b`: starting from a finite running score `q`, the
final score is finite, at least `q`, an upper bound of all child values,
and either the state is unchanged or the placement is the column of a
child attaining the final score. -/
theorem mmMaxLoop_leaf_fin_spec (f : Board → ℚ) :
    ∀ (l : List (Nat × Board)) (st : MmState) (q : ℚ), st.score = .fin q →
      ∃ q', (mmMaxLoop (fun b s => (.fin (f b), s)) l st).score = .fin q'
        ∧ q ≤ q'
        ∧ (∀ y ∈ l, f y.2 ≤ q')
        ∧ (mmMaxLoop (fun b s => (.fin (f b), s)) l st = st
            ∨ ∃ x ∈ l, (mmMaxLoop (fun b s => (.fin (f b), s)) l st).placement = some x.1
                ∧ q' = f x.2) := by
  intro l
  induction l with
  | nil =>
      intro st q h
      exact ⟨q, h, le_refl q, by simp, Or.inl rfl⟩
  | cons ch rest ih =>
      intro st q h
      by_cases hlt : q < f ch.2
      · have hstep : mmMaxLoop (fun b s => (.fin (f b), s)) (ch :: rest) st
            = mmMaxLoop (fun b s => (.fin (f b), s)) rest
                { placement := some ch.1, score := .fin (f ch.2) } := by
          simp [mmMaxLoop, h, XRat.lt_fin_fin, hlt]
        obtain ⟨q', hsc, hge, hall, hor⟩ :=
          ih { placement := some ch.1, score := .fin (f ch.2) } (f ch.2) rfl
        rw [hstep]
        refine ⟨q', hsc, le_of_lt (lt_of_lt_of_le hlt hge), ?_, ?_⟩
        · intro y hy
          rcases List.mem_cons.mp hy with hy | hy
          · subst hy; exact hge
          · exact hall y hy
        · rcases hor with heq | ⟨x, hx, hpl, hq⟩
          · refine Or.inr ⟨ch, List.mem_cons_self ch rest, ?_, ?_⟩
            · rw [heq]
            · have := hsc
              rw [heq] at this
              exact (XRat.fin.injEq _ _).mp this.symm
          · exact Or.inr ⟨x, List.mem_cons_of_mem ch hx, hpl, hq⟩
      · have hstep : mmMaxLoop (fun b s => (.fin (f b), s)) (ch :: rest) st
            = mmMaxLoop (fun b s => (.fin (f b), s)) rest st := by
          simp [mmMaxLoop, h, XRat.lt_fin_fin, hlt]
        obtain ⟨q', hsc, hge, hall, hor⟩ := ih st q h
        rw [hstep]
        refine ⟨q', hsc, hge, ?_, ?_⟩
        · intro y hy
          rcases List.mem_cons.mp hy with hy | hy
          · subst hy; exact le_trans (le_of_not_lt hlt) hge
          · exact hall y hy
        · rcases hor with heq | ⟨x, hx, hpl, hq⟩
          · exact Or.inl heq
          · exact Or.inr ⟨x, List.mem_cons_of_mem ch hx, hpl, hq⟩

/-- Behaviour of the `max_value` child loop on a nonempty child list when
the running score starts at `-inf`: the recorded placement is the column
of a child whose leaf value is maximal. -/
theorem mmMaxLoop_neginf_spec (f : Board → ℚ) (ch : Nat × Board) (rest : List (Nat × Board))
    (st : MmState) (h : st.score = .negInf) :
    ∃ x ∈ ch :: rest,
      (mmMaxLoop (fun b s => (.fin (f b), s)) (ch :: rest) st).placement = some x.1
        ∧ ∀ y ∈ ch :: rest, f y.2 ≤ f x.2 := by
  have hstep : mmMaxLoop (fun b s => (.fin (f b), s)) (ch :: rest) st
      = mmMaxLoop (fun b s => (.fin (f b), s)) rest
          { placement := some ch.1, score := .fin (f ch.2) } := by
    simp [mmMaxLoop, h, XRat.lt_negInf_fin]
  obtain ⟨q', hsc, hge, hall, hor⟩ :=
    mmMaxLoop_leaf_fin_spec f rest { placement := some ch.1, score := .fin (f ch.2) } (f ch.2) rfl
  rw [hstep]
  rcases hor with heq | ⟨x, hx, hpl, hq⟩
  · have hq' : q' = f ch.2 := by
      rw [heq] at hsc
      exact (XRat.fin.injEq _ _).mp hsc.symm
    refine ⟨ch, List.mem_cons_self ch rest, by rw [heq], ?_⟩
    intro y hy
    rcases List.mem_cons.mp hy with hy | hy
    · subst hy; exact le_refl _
    · exact hq' ▸ hall y hy
  · refine ⟨x, List.mem_cons_of_mem ch hx, hpl, ?_⟩
    intro y hy
    rcases List.mem_cons.mp hy with hy | hy
    · subst hy; exact hq ▸ hge
    · exact hq ▸ hall y hy

/-- A non-terminal board is not full, so some column is placeable and the
move generator returns at least one successor. -/
theorem get_child_boards_ne_nil (p : Int) (b : Board) (h : b.terminal = false) :
    get_child_boards p b ≠ [] := by
  have hfull : b.full = false := by
    have := h
    unfold Board.terminal at this
    rcases Bool.or_eq_false_iff.mp this with ⟨h1, _⟩
    exact (Bool.or_eq_false_iff.mp h1).1
  unfold Board.full at hfull
  rw [List.all_eq_false] at hfull
  obtain ⟨r, hr, hrow⟩ := hfull
  rw [Bool.not_eq_true, List.all_eq_false] at hrow
  obtain ⟨c, hc, hcell⟩ := hrow
  rw [Bool.not_eq_true] at hcell
  have hcell0 : b.cell r c == 0 := by
    revert hcell
    cases hb : (b.cell r c != 0) <;> simp_all
  have hplace : b.placeable c = true := by
    unfold Board.placeable
    rw [Bool.and_eq_true]
    refine ⟨by simpa using List.mem_range.mp hc, ?_⟩
    rw [List.any_eq_true]
    exact ⟨r, hr, hcell0⟩
  intro hnil
  have hch := (get_child_boards_characterization p b).1
  rw [hnil] at hch
  have hfil : (List.range b.cols).filter (fun c => b.placeable c) = [] :=
    List.map_eq_nil_iff.mp hch.symm
  have hmem : c ∈ (List.range b.cols).filter (fun c => b.placeable c) :=
    List.mem_filter.mpr ⟨hc, hplace⟩
  rw [hfil] at hmem
  exact List.not_mem_nil c hmem

/-- C4 (amended half): at `depth_limit = 1` on a non-terminal board the
column `minimax` returns is the root ply's own decision — the column of a
root successor whose evaluation (for the requester) is maximal among all
successors. -/
theorem minimax_depth1_root_decision (p : Int) (b : Board) (h : b.terminal = false) :
    ∃ x ∈ get_child_boards p b,
      minimax p b 1 = some x.1
        ∧ ∀ y ∈ get_child_boards p b, evaluate p y.2 ≤ evaluate p x.2 := by
  obtain ⟨ch, rest, hl⟩ := List.exists_cons_of_ne_nil (get_child_boards_ne_nil p b h)
  have hmm : minimax p b 1
      = (mmMaxLoop (fun b' s => (.fin ((evaluate p b' : ℚ)), s)) (get_child_boards p b)
          { placement := none, score := .negInf }).placement := by
    simp only [minimax, mmValue, h, Bool.false_eq_true, if_false, if_pos]
  rw [hl] at hmm
  obtain ⟨x, hx, hpl, hbest⟩ :=
    mmMaxLoop_neginf_spec (fun b' => ((evaluate p b' : ℚ))) ch rest
      { placement := none, score := .negInf } rfl
  refine ⟨x, hl ▸ hx, ?_, ?_⟩
  · rw [hmm, hpl]
  · intro y hy
    have := hbest y (hl ▸ hy)
    exact_mod_cast this

/-- Witness for the C4 amended theorem at the empty 4×4 board. -/
theorem minimax_depth1_root_decision_witness :
    emptyBoard4.terminal = false ∧
      ∃ x ∈ get_child_boards PLAYER1 emptyBoard4,
        minimax PLAYER1 emptyBoard4 1 = some x.1
          ∧ ∀ y ∈ get_child_boards PLAYER1 emptyBoard4,
              evaluate PLAYER1 y.2 ≤ evaluate PLAYER1 x.2 :=
  ⟨by decide, minimax_depth1_root_decision PLAYER1 emptyBoard4 (by decide)⟩

/-- Closed form of the `expectimax.min_value` child loop when every
recursive call is a leaf with value `f b`: starting from a finite running
score `q`, the final score folds `chanceStep` over the children's
values. -/
theorem exChanceLoop_leaf_spec (f : Board → ℚ) :
    ∀ (l : List (Nat × Board)) (st : MmState) (q : ℚ), st.score = .fin q →
      (exChanceLoop (fun b s => (.fin (f b), s)) l st).score
        = .fin (l.foldl (fun s ch => chanceStep s (f ch.2)) q) := by
  intro l
  induction l with
  | nil => intro st q h; simpa [exChanceLoop] using h
  | cons ch rest ih =>
      intro st q h
      have hstep : exChanceLoop (fun b s => (.fin (f b), s)) (ch :: rest) st
          = exChanceLoop (fun b s => (.fin (f b), s)) rest
              (if (q + (1 / 7 : ℚ) * f ch.2) < f ch.2
                then { placement := some ch.1, score := .fin (f ch.2) }
                else { st with score := .fin (q + (1 / 7 : ℚ) * f ch.2) }) := by
        by_cases hlt : (q + (1 / 7 : ℚ) * f ch.2) < f ch.2 <;>
          simp [exChanceLoop, h, XRat.add, XRat.divSeven, XRat.lt_fin_fin, hlt]
      rw [hstep, List.foldl_cons]
      show _ = XRat.fin (List.foldl _ (chanceStep q (f ch.2)) rest)
      by_cases hlt : (q + (1 / 7 : ℚ) * f ch.2) < f ch.2
      · rw [if_pos hlt]
        have hcs : chanceStep q (f ch.2) = f ch.2 := by
          simp only [chanceStep]
          rw [if_pos hlt]
        rw [hcs]
        exact ih _ (f ch.2) rfl
      · rw [if_neg hlt]
        have hcs : chanceStep q (f ch.2) = q + (1 / 7 : ℚ) * f ch.2 := by
          simp only [chanceStep]
          rw [if_neg hlt]
        rw [hcs]
        exact ih _ _ rfl

/-- C5 (amended half): at depth 1 a chance (adversary) node's value is
the `chanceStep` fold — each child weighted by the fixed constant `1/7`,
with the running sum replaced by a child's value whenever it falls below
it — over the children's leaf values (which are themselves scored with
the locally passed `next_player`), not the `1/k` mean. -/
theorem expectimax_chance_node_seventh_weighting (maxP nextP p : Int) (b : Board)
    (st : MmState) (hp : p ≠ maxP) (h : b.terminal = false) :
    (exValue maxP nextP 1 p b st).1
      = .fin (chanceFold ((get_child_boards p b).map
          (fun ch => ((evaluate nextP ch.2 : ℚ))))) := by
  have hstep : (exValue maxP nextP 1 p b st).1
      = (exChanceLoop (fun b' s => (.fin ((evaluate nextP b' : ℚ)), s)) (get_child_boards p b)
          { st with score := .fin 0 }).score := by
    simp only [exValue, h, Bool.false_eq_true, if_false, hp, if_neg]
  rw [hstep, exChanceLoop_leaf_spec _ _ _ 0 rfl, chanceFold, List.foldl_map]

/-- Witness for the C5 amended theorem on the board where the adversary
has exactly three legal replies. -/
theorem expectimax_chance_node_seventh_weighting_witness :
    (PLAYER2 ≠ PLAYER1) ∧ threeColBoard.terminal = false ∧
      (exValue PLAYER1 PLAYER2 1 PLAYER2 threeColBoard mmInit).1
        = .fin (chanceFold ((get_child_boards PLAYER2 threeColBoard).map
            (fun ch => ((evaluate PLAYER2 ch.2 : ℚ))))) :=
  ⟨by decide, by decide,
    expectimax_chance_node_seventh_weighting PLAYER1 PLAYER2 PLAYER2 threeColBoard mmInit
      (by decide) (by decide)⟩

theorem place_rows (b : Board) (p : Int) (c : Nat) : (b.place p c).rows = b.rows := by
  unfold Board.place
  cases b.lowestEmpty c <;> rfl

theorem place_cols (b : Board) (p : Int) (c : Nat) : (b.place p c).cols = b.cols := by
  unfold Board.place
  cases b.lowestEmpty c <;> rfl

theorem place_cell (b : Board) (p : Int) (c r0 : Nat) (h : b.lowestEmpty c = some r0)
    (r' c' : Nat) :
    (b.place p c).cell r' c' = if r' = r0 ∧ c' = c then p else b.cell r' c' := by
  unfold Board.place
  rw [h]

theorem lowestEmpty_cell_zero (b : Board) (c r0 : Nat) (h : b.lowestEmpty c = some r0) :
    (b.cell r0 c == 0) = true := by
  unfold Board.lowestEmpty at h
  exact @List.find?_some _ (fun r => b.cell r c == 0) r0 (List.range b.rows).reverse h

/-- Placing a disc can only shrink placeability: a column placeable after
the placement was already placeable before. -/
theorem placeable_of_place (b : Board) (p : Int) (c c' : Nat)
    (h : (b.place p c).placeable c' = true) : b.placeable c' = true := by
  cases hle : b.lowestEmpty c with
  | none =>
      unfold Board.place at h
      rw [hle] at h
      exact h
  | some r0 =>
      unfold Board.placeable at h ⊢
      rw [Bool.and_eq_true] at h ⊢
      obtain ⟨h1, h2⟩ := h
      rw [place_cols] at h1
      rw [place_rows] at h2
      refine ⟨h1, ?_⟩
      rw [List.any_eq_true] at h2 ⊢
      obtain ⟨r, hr, hcell⟩ := h2
      rw [place_cell b p c r0 hle] at hcell
      refine ⟨r, hr, ?_⟩
      by_cases hrc : r = r0 ∧ c' = c
      · rw [hrc.1, hrc.2]
        exact lowestEmpty_cell_zero b c r0 hle
      · rwa [if_neg hrc] at hcell

/-- Membership in the generated successor list: the column is placeable
and the successor board is the placed clone. -/
theorem mem_get_child_boards {p : Int} {b : Board} {x : Nat × Board}
    (hx : x ∈ get_child_boards p b) :
    b.placeable x.1 = true ∧ x.2 = (b.clone).place p x.1 := by
  rw [(get_child_boards_characterization p b).1] at hx
  obtain ⟨c, hc, heq⟩ := List.mem_map.mp hx
  obtain ⟨-, hpl⟩ := List.mem_filter.mp hc
  cases heq
  exact ⟨hpl, rfl⟩

theorem mmMaxLoop_PlOK (b0 : Board) (recur : Board → MmState → XRat × MmState) :
    ∀ (l : List (Nat × Board)) (st : MmState),
      (∀ x ∈ l, b0.placeable x.1 = true) →
      (∀ x ∈ l, ∀ s, PlOK b0 s → PlOK b0 (recur x.2 s).2) →
      PlOK b0 st → PlOK b0 (mmMaxLoop recur l st) := by
  intro l
  induction l with
  | nil => intro st _ _ hst; exact hst
  | cons ch rest ih =>
      intro st hpl hrec hst
      have h1 : PlOK b0 (recur ch.2 st).2 :=
        hrec ch (List.mem_cons_self _ _) st hst
      have h2 : PlOK b0 (if (recur ch.2 st).2.score.lt (recur ch.2 st).1
          then { placement := some ch.1, score := (recur ch.2 st).1 }
          else (recur ch.2 st).2) := by
        by_cases hlt : (recur ch.2 st).2.score.lt (recur ch.2 st).1 = true
        · rw [if_pos hlt]
          intro c hc
          cases hc
          exact hpl ch (List.mem_cons_self _ _)
        · rw [if_neg (by simpa using hlt)]
          exact h1
      exact ih _ (fun x hx => hpl x (List.mem_cons_of_mem _ hx))
        (fun x hx => hrec x (List.mem_cons_of_mem _ hx)) h2

theorem mmMinLoop_PlOK (b0 : Board) (recur : Board → MmState → XRat × MmState) :
    ∀ (l : List (Nat × Board)) (st : MmState),
      (∀ x ∈ l, b0.placeable x.1 = true) →
      (∀ x ∈ l, ∀ s, PlOK b0 s → PlOK b0 (recur x.2 s).2) →
      PlOK b0 st → PlOK b0 (mmMinLoop recur l st) := by
  intro l
  induction l with
  | nil => intro st _ _ hst; exact hst
  | cons ch rest ih =>
      intro st hpl hrec hst
      have h1 : PlOK b0 (recur ch.2 st).2 :=
        hrec ch (List.mem_cons_self _ _) st hst
      have h2 : PlOK b0 (if (recur ch.2 st).1.lt (recur ch.2 st).2.score
          then { placement := some ch.1, score := (recur ch.2 st).1 }
          else (recur ch.2 st).2) := by
        by_cases hlt : (recur ch.2 st).1.lt (recur ch.2 st).2.score = true
        · rw [if_pos hlt]
          intro c hc
          cases hc
          exact hpl ch (List.mem_cons_self _ _)
        · rw [if_neg (by simpa using hlt)]
          exact h1
      exact ih _ (fun x hx => hpl x (List.mem_cons_of_mem _ hx))
        (fun x hx => hrec x (List.mem_cons_of_mem _ hx)) h2

theorem exChanceLoop_PlOK (b0 : Board) (recur : Board → MmState → XRat × MmState) :
    ∀ (l : List (Nat × Board)) (st : MmState),
      (∀ x ∈ l, b0.placeable x.1 = true) →
      (∀ x ∈ l, ∀ s, PlOK b0 s → PlOK b0 (recur x.2 s).2) →
      PlOK b0 st → PlOK b0 (exChanceLoop recur l st) := by
  intro l
  induction l with
  | nil => intro st _ _ hst; exact hst
  | cons ch rest ih =>
      intro st hpl hrec hst
      have h1 : PlOK b0 (recur ch.2 st).2 :=
        hrec ch (List.mem_cons_self _ _) st hst
      have h2 : PlOK b0 ({ (recur ch.2 st).2 with
          score := (recur ch.2 st).2.score.add (recur ch.2 st).1.divSeven } : MmState) := by
        intro c hc
        exact h1 c hc
      have h3 : PlOK b0 (if ({ (recur ch.2 st).2 with
          score := (recur ch.2 st).2.score.add (recur ch.2 st).1.divSeven } : MmState).score.lt
            (recur ch.2 st).1
          then { placement := some ch.1, score := (recur ch.2 st).1 }
          else { (recur ch.2 st).2 with
            score := (recur ch.2 st).2.score.add (recur ch.2 st).1.divSeven }) := by
        by_cases hlt : ({ (recur ch.2 st).2 with
            score := (recur ch.2 st).2.score.add (recur ch.2 st).1.divSeven } : MmState).score.lt
              (recur ch.2 st).1 = true
        · rw [if_pos hlt]
          intro c hc
          cases hc
          exact hpl ch (List.mem_cons_self _ _)
        · rw [if_neg (by simpa using hlt)]
          exact h2
      exact ih _ (fun x hx => hpl x (List.mem_cons_of_mem _ hx))
        (fun x hx => hrec x (List.mem_cons_of_mem _ hx)) h3

theorem abMaxLoop_PlOK (b0 : Board) (recur : Board → AbState → XRat × AbState) :
    ∀ (l : List (Nat × Board)) (st : AbState),
      (∀ x ∈ l, b0.placeable x.1 = true) →
      (∀ x ∈ l, ∀ s, PlOKa b0 s → PlOKa b0 (recur x.2 s).2) →
      PlOKa b0 st → PlOKa b0 (abMaxLoop recur l st) := by
  intro l
  induction l with
  | nil => intro st _ _ hst; exact hst
  | cons ch rest ih =>
      intro st hpl hrec hst
      have h1 : PlOKa b0 (recur ch.2 st).2 :=
        hrec ch (List.mem_cons_self _ _) st hst
      simp only [abMaxLoop]
      split
      · have h2 : PlOKa b0 ({ (recur ch.2 st).2 with placement := some ch.1, score := (recur ch.2 st).1, alpha := (recur ch.2 st).2.alpha.maxx (recur ch.2 st).1 } : AbState) := by
          intro c hc
          cases hc
          exact hpl ch (List.mem_cons_self _ _)
        split
        · exact h2
        · exact ih _ (fun x hx => hpl x (List.mem_cons_of_mem _ hx))
            (fun x hx => hrec x (List.mem_cons_of_mem _ hx)) h2
      · split
        · exact h1
        · exact ih _ (fun x hx => hpl x (List.mem_cons_of_mem _ hx))
            (fun x hx => hrec x (List.mem_cons_of_mem _ hx)) h1

theorem abMinLoop_PlOK (b0 : Board) (recur : Board → AbState → XRat × AbState) :
    ∀ (l : List (Nat × Board)) (st : AbState),
      (∀ x ∈ l, b0.placeable x.1 = true) →
      (∀ x ∈ l, ∀ s, PlOKa b0 s → PlOKa b0 (recur x.2 s).2) →
      PlOKa b0 st → PlOKa b0 (abMinLoop recur l st) := by
  intro l
  induction l with
  | nil => intro st _ _ hst; exact hst
  | cons ch rest ih =>
      intro st hpl hrec hst
      have h1 : PlOKa b0 (recur ch.2 st).2 :=
        hrec ch (List.mem_cons_self _ _) st hst
      simp only [abMinLoop]
      split
      · have h2 : PlOKa b0 ({ (recur ch.2 st).2 with placement := some ch.1, score := (recur ch.2 st).1, beta := (recur ch.2 st).2.beta.minn (recur ch.2 st).1 } : AbState) := by
          intro c hc
          cases hc
          exact hpl ch (List.mem_cons_self _ _)
        split
        · exact h2
        · exact ih _ (fun x hx => hpl x (List.mem_cons_of_mem _ hx))
            (fun x hx => hrec x (List.mem_cons_of_mem _ hx)) h2
      · split
        · exact h1
        · exact ih _ (fun x hx => hpl x (List.mem_cons_of_mem _ hx))
            (fun x hx => hrec x (List.mem_cons_of_mem _ hx)) h1

theorem mmValue_PlOK (maxP nextP : Int) (b0 : Board) :
    ∀ (d : Nat) (p : Int) (b : Board) (st : MmState),
      Covers b0 b → PlOK b0 st → PlOK b0 (mmValue maxP nextP d p b st).2 := by
  intro d
  induction d with
  | zero => intro p b st _ hst; exact hst
  | succ d ih =>
      intro p b st hcov hst
      have hch1 : ∀ x ∈ get_child_boards p b, b0.placeable x.1 = true := fun x hx =>
        hcov x.1 (mem_get_child_boards hx).1
      have hch2 : ∀ x ∈ get_child_boards p b, Covers b0 x.2 := by
        intro x hx c hc
        rw [(mem_get_child_boards hx).2] at hc
        exact hcov c (placeable_of_place _ _ _ _ hc)
      have hst' : ∀ v : XRat, PlOK b0 { st with score := v } := fun v c hc => hst c hc
      simp only [mmValue]
      split
      · exact hst
      · split
        · exact mmMaxLoop_PlOK b0 _ (get_child_boards p b) _ hch1
            (fun x hx s hs => ih nextP x.2 s (hch2 x hx) hs) (hst' _)
        · exact mmMinLoop_PlOK b0 _ (get_child_boards p b) _ hch1
            (fun x hx s hs => ih nextP x.2 s (hch2 x hx) hs) (hst' _)

theorem abValue_PlOK (maxP nextP : Int) (b0 : Board) :
    ∀ (d : Nat) (p : Int) (b : Board) (st : AbState),
      Covers b0 b → PlOKa b0 st → PlOKa b0 (abValue maxP nextP d p b st).2 := by
  intro d
  induction d with
  | zero => intro p b st _ hst; exact hst
  | succ d ih =>
      intro p b st hcov hst
      have hch1 : ∀ x ∈ get_child_boards p b, b0.placeable x.1 = true := fun x hx =>
        hcov x.1 (mem_get_child_boards hx).1
      have hch2 : ∀ x ∈ get_child_boards p b, Covers b0 x.2 := by
        intro x hx c hc
        rw [(mem_get_child_boards hx).2] at hc
        exact hcov c (placeable_of_place _ _ _ _ hc)
      have hst' : ∀ v : XRat, PlOKa b0 { st with score := v } := fun v c hc => hst c hc
      simp only [abValue]
      split
      · exact hst
      · split
        · exact abMaxLoop_PlOK b0 _ (get_child_boards p b) _ hch1
            (fun x hx s hs => ih p x.2 s (hch2 x hx) hs) (hst' _)
        · exact abMinLoop_PlOK b0 _ (get_child_boards p b) _ hch1
            (fun x hx s hs => ih p x.2 s (hch2 x hx) hs) (hst' _)

theorem exValue_PlOK (maxP nextP : Int) (b0 : Board) :
    ∀ (d : Nat) (p : Int) (b : Board) (st : MmState),
      Covers b0 b → PlOK b0 st → PlOK b0 (exValue maxP nextP d p b st).2 := by
  intro d
  induction d with
  | zero => intro p b st _ hst; exact hst
  | succ d ih =>
      intro p b st hcov hst
      have hch1 : ∀ x ∈ get_child_boards p b, b0.placeable x.1 = true := fun x hx =>
        hcov x.1 (mem_get_child_boards hx).1
      have hch2 : ∀ x ∈ get_child_boards p b, Covers b0 x.2 := by
        intro x hx c hc
        rw [(mem_get_child_boards hx).2] at hc
        exact hcov c (placeable_of_place _ _ _ _ hc)
      have hst' : ∀ v : XRat, PlOK b0 { st with score := v } := fun v c hc => hst c hc
      simp only [exValue]
      split
      · exact hst
      · split
        · exact mmMaxLoop_PlOK b0 _ (get_child_boards p b) _ hch1
            (fun x hx s hs => ih nextP x.2 s (hch2 x hx) hs) hst
        · exact exChanceLoop_PlOK b0 _ (get_child_boards p b) _ hch1
            (fun x hx s hs => ih nextP x.2 s (hch2 x hx) hs) (hst' _)

/-- C10: whenever any of the three searches returns a column (not
`None`), that column is placeable on the input board: every recorded
column comes from `get_child_boards` on a board derived from the input by
adding discs, and placeability only shrinks as discs are added. -/
theorem returned_column_placeable (p : Int) (b : Board) (d : Nat) (c : Nat) :
    (minimax p b d = some c → b.placeable c = true)
      ∧ (alphabeta p b d = some c → b.placeable c = true)
      ∧ (expectimax p b d = some c → b.placeable c = true) := by
  refine ⟨fun h => ?_, fun h => ?_, fun h => ?_⟩
  · exact mmValue_PlOK p (if p = PLAYER1 then PLAYER2 else PLAYER1) b d p b
      { placement := none, score := .negInf } (fun _ hc => hc) (fun _ hc => by cases hc) c h
  · exact abValue_PlOK p (if p = PLAYER1 then PLAYER2 else PLAYER1) b d p b
      { placement := none, score := .negInf, alpha := .negInf, beta := .posInf }
      (fun _ hc => hc) (fun _ hc => by cases hc) c h
  · exact exValue_PlOK p (if p = PLAYER1 then PLAYER2 else PLAYER1) b d p b
      { placement := none, score := .negInf } (fun _ hc => hc) (fun _ hc => by cases hc) c h

/-- Witness for C10 exercising all three implications at depth 1 on the
empty 4×4 board. -/
theorem returned_column_placeable_witness :
    emptyBoard4.placeable 0 = true ∧ emptyBoard4.placeable 1 = true
      ∧ emptyBoard4.placeable 1 = true :=
  ⟨(returned_column_placeable PLAYER1 emptyBoard4 1 0).1 (by decide),
   (returned_column_placeable PLAYER1 emptyBoard4 1 1).2.1 (by decide),
   (returned_column_placeable PLAYER1 emptyBoard4 1 1).2.2 (by decide)⟩

theorem storeGrows_refl (σ : Store) : StoreGrows σ σ := ⟨[], by simp⟩

theorem storeGrows_trans {σ σ' σ'' : Store} (h1 : StoreGrows σ σ') (h2 : StoreGrows σ' σ'') :
    StoreGrows σ σ'' := by
  obtain ⟨t1, ht1⟩ := h1
  obtain ⟨t2, ht2⟩ := h2
  exact ⟨t1 ++ t2, by rw [ht2, ht1, List.append_assoc]⟩

theorem set_append_self (σ : Store) (b v : Board) :
    (σ ++ [b]).set σ.length v = σ ++ [v] := by
  induction σ with
  | nil => rfl
  | cons hd tl ih => simp [List.set, ih]

theorem getD_append_self (σ : Store) (b : Board) :
    (σ ++ [b]).getD σ.length default = b := by
  induction σ with
  | nil => rfl
  | cons hd tl ih => simp [List.getD, ih]

theorem gcbLoop_grows (player : Int) (ref : Nat) :
    ∀ (cs : List Nat) (res : List (Nat × Nat)) (σ : Store),
      StoreGrows σ (gcbLoop player ref cs (res, σ)).2 := by
  intro cs
  induction cs with
  | nil => intro res σ; exact storeGrows_refl σ
  | cons c rest ih =>
      intro res σ
      simp only [gcbLoop, cloneS]
      split
      · have hset : placeS (σ ++ [(σ.getD ref default).clone]) (List.length σ) player c
            = σ ++ [(((σ ++ [(σ.getD ref default).clone]).getD (List.length σ)
                default).place player c)] := by
          unfold placeS
          exact set_append_self σ _ _
        rw [hset]
        exact storeGrows_trans ⟨_, rfl⟩ (ih _ _)
      · exact ih res σ

theorem get_child_boardsS_grows (player : Int) (σ : Store) (ref : Nat) :
    StoreGrows σ (get_child_boardsS player σ ref).2 :=
  gcbLoop_grows player ref _ [] σ

theorem mmMaxLoopS_grows (recur : Nat → MmState → Store → XRat × MmState × Store)
    (hrec : ∀ rf s σ, StoreGrows σ (recur rf s σ).2.2) :
    ∀ (l : List (Nat × Nat)) (st : MmState) (σ : Store),
      StoreGrows σ (mmMaxLoopS recur l st σ).2 := by
  intro l
  induction l with
  | nil => intro st σ; exact storeGrows_refl σ
  | cons ch rest ih =>
      intro st σ
      exact storeGrows_trans (hrec ch.2 st σ) (ih _ _)

theorem mmMinLoopS_grows (recur : Nat → MmState → Store → XRat × MmState × Store)
    (hrec : ∀ rf s σ, StoreGrows σ (recur rf s σ).2.2) :
    ∀ (l : List (Nat × Nat)) (st : MmState) (σ : Store),
      StoreGrows σ (mmMinLoopS recur l st σ).2 := by
  intro l
  induction l with
  | nil => intro st σ; exact storeGrows_refl σ
  | cons ch rest ih =>
      intro st σ
      exact storeGrows_trans (hrec ch.2 st σ) (ih _ _)

theorem exChanceLoopS_grows (recur : Nat → MmState → Store → XRat × MmState × Store)
    (hrec : ∀ rf s σ, StoreGrows σ (recur rf s σ).2.2) :
    ∀ (l : List (Nat × Nat)) (st : MmState) (σ : Store),
      StoreGrows σ (exChanceLoopS recur l st σ).2 := by
  intro l
  induction l with
  | nil => intro st σ; exact storeGrows_refl σ
  | cons ch rest ih =>
      intro st σ
      exact storeGrows_trans (hrec ch.2 st σ) (ih _ _)

theorem abMaxLoopS_grows (recur : Nat → AbState → Store → XRat × AbState × Store)
    (hrec : ∀ rf s σ, StoreGrows σ (recur rf s σ).2.2) :
    ∀ (l : List (Nat × Nat)) (st : AbState) (σ : Store),
      StoreGrows σ (abMaxLoopS recur l st σ).2 := by
  intro l
  induction l with
  | nil => intro st σ; exact storeGrows_refl σ
  | cons ch rest ih =>
      intro st σ
      simp only [abMaxLoopS]
      split
      · split
        · exact hrec ch.2 st σ
        · exact storeGrows_trans (hrec ch.2 st σ) (ih _ _)
      · split
        · exact hrec ch.2 st σ
        · exact storeGrows_trans (hrec ch.2 st σ) (ih _ _)

theorem abMinLoopS_grows (recur : Nat → AbState → Store → XRat × AbState × Store)
    (hrec : ∀ rf s σ, StoreGrows σ (recur rf s σ).2.2) :
    ∀ (l : List (Nat × Nat)) (st : AbState) (σ : Store),
      StoreGrows σ (abMinLoopS recur l st σ).2 := by
  intro l
  induction l with
  | nil => intro st σ; exact storeGrows_refl σ
  | cons ch rest ih =>
      intro st σ
      simp only [abMinLoopS]
      split
      · split
        · exact hrec ch.2 st σ
        · exact storeGrows_trans (hrec ch.2 st σ) (ih _ _)
      · split
        · exact hrec ch.2 st σ
        · exact storeGrows_trans (hrec ch.2 st σ) (ih _ _)

theorem mmValueS_grows (maxP nextP : Int) :
    ∀ (d : Nat) (p : Int) (ref : Nat) (st : MmState) (σ : Store),
      StoreGrows σ (mmValueS maxP nextP d p ref st σ).2.2 := by
  intro d
  induction d with
  | zero => intro p ref st σ; exact storeGrows_refl σ
  | succ d ih =>
      intro p ref st σ
      simp only [mmValueS]
      split
      · exact storeGrows_refl σ
      · split
        · exact storeGrows_trans (get_child_boardsS_grows p σ ref)
            (mmMaxLoopS_grows _ (fun rf s τ => ih nextP rf s τ) _ _ _)
        · exact storeGrows_trans (get_child_boardsS_grows p σ ref)
            (mmMinLoopS_grows _ (fun rf s τ => ih nextP rf s τ) _ _ _)

theorem abValueS_grows (maxP nextP : Int) :
    ∀ (d : Nat) (p : Int) (ref : Nat) (st : AbState) (σ : Store),
      StoreGrows σ (abValueS maxP nextP d p ref st σ).2.2 := by
  intro d
  induction d with
  | zero => intro p ref st σ; exact storeGrows_refl σ
  | succ d ih =>
      intro p ref st σ
      simp only [abValueS]
      split
      · exact storeGrows_refl σ
      · split
        · exact storeGrows_trans (get_child_boardsS_grows p σ ref)
            (abMaxLoopS_grows _ (fun rf s τ => ih p rf s τ) _ _ _)
        · exact storeGrows_trans (get_child_boardsS_grows p σ ref)
            (abMinLoopS_grows _ (fun rf s τ => ih p rf s τ) _ _ _)

theorem exValueS_grows (maxP nextP : Int) :
    ∀ (d : Nat) (p : Int) (ref : Nat) (st : MmState) (σ : Store),
      StoreGrows σ (exValueS maxP nextP d p ref st σ).2.2 := by
  intro d
  induction d with
  | zero => intro p ref st σ; exact storeGrows_refl σ
  | succ d ih =>
      intro p ref st σ
      simp only [exValueS]
      split
      · exact storeGrows_refl σ
      · split
        · exact storeGrows_trans (get_child_boardsS_grows p σ ref)
            (mmMaxLoopS_grows _ (fun rf s τ => ih nextP rf s τ) _ _ _)
        · exact storeGrows_trans (get_child_boardsS_grows p σ ref)
            (exChanceLoopS_grows _ (fun rf s τ => ih nextP rf s τ) _ _ _)

/-- C8: no core operation mutates the board it was given.  In the
store-level embedding — where `clone` allocates and `place` mutates in
place, exactly as the Python objects behave — `get_child_boards`,
`minimax`, `alphabeta` and `expectimax` only ever append freshly placed
clones to the store: every pre-existing board object, in particular the
input board, is unchanged afterwards. -/
theorem core_ops_never_mutate_input (p : Int) (σ : Store) (ref d j : Nat)
    (hj : j < σ.length) :
    (get_child_boardsS p σ ref).2.getD j default = σ.getD j default
      ∧ (minimaxS p σ ref d).2.getD j default = σ.getD j default
      ∧ (alphabetaS p σ ref d).2.getD j default = σ.getD j default
      ∧ (expectimaxS p σ ref d).2.getD j default = σ.getD j default := by
  refine ⟨?_, ?_, ?_, ?_⟩
  · obtain ⟨t, ht⟩ := get_child_boardsS_grows p σ ref
    rw [ht]
    exact List.getD_append _ _ _ _ hj
  · obtain ⟨t, ht⟩ := mmValueS_grows p (if p = PLAYER1 then PLAYER2 else PLAYER1) d p ref
      mmInit σ
    rw [show (minimaxS p σ ref d).2
        = (mmValueS p (if p = PLAYER1 then PLAYER2 else PLAYER1) d p ref mmInit σ).2.2
      from rfl, ht]
    exact List.getD_append _ _ _ _ hj
  · obtain ⟨t, ht⟩ := abValueS_grows p (if p = PLAYER1 then PLAYER2 else PLAYER1) d p ref
      { placement := none, score := .negInf, alpha := .negInf, beta := .posInf } σ
    rw [show (alphabetaS p σ ref d).2
        = (abValueS p (if p = PLAYER1 then PLAYER2 else PLAYER1) d p ref
            { placement := none, score := .negInf, alpha := .negInf, beta := .posInf } σ).2.2
      from rfl, ht]
    exact List.getD_append _ _ _ _ hj
  · obtain ⟨t, ht⟩ := exValueS_grows p (if p = PLAYER1 then PLAYER2 else PLAYER1) d p ref
      mmInit σ
    rw [show (expectimaxS p σ ref d).2
        = (exValueS p (if p = PLAYER1 then PLAYER2 else PLAYER1) d p ref mmInit σ).2.2
      from rfl, ht]
    exact List.getD_append _ _ _ _ hj

/-- Witness for C8 on a one-board store at depth 1. -/
theorem core_ops_never_mutate_input_witness :
    0 < ([emptyBoard4] : Store).length ∧
      ((get_child_boardsS PLAYER1 [emptyBoard4] 0).2.getD 0 default
          = ([emptyBoard4] : Store).getD 0 default
        ∧ (minimaxS PLAYER1 [emptyBoard4] 0 1).2.getD 0 default
          = ([emptyBoard4] : Store).getD 0 default
        ∧ (alphabetaS PLAYER1 [emptyBoard4] 0 1).2.getD 0 default
          = ([emptyBoard4] : Store).getD 0 default
        ∧ (expectimaxS PLAYER1 [emptyBoard4] 0 1).2.getD 0 default
          = ([emptyBoard4] : Store).getD 0 default) :=
  ⟨by decide, core_ops_never_mutate_input PLAYER1 [emptyBoard4] 0 1 0 (by decide)⟩
